import Mathlib

/-!
# Verification of the ORIGEN output-parsing and material-aggregation pipeline

Shallow embedding of the core pipeline of this repository:
  * `src/tools/parseOutput.py` (`OptimizedORIGENParser`): nuclide-name → ZAID
    conversion, isotope availability, section data extraction, case discovery
    and selection, section aggregation, MCNP material generation;
  * `src/backups/parseOutput_simple.py` (`SimpleORIGENParser`): the legacy
    per-line extraction used for the refinement comparison;
  * `src/tools/parallel_parseOutput_processor.py`
    (`ParallelParseOutputProcessor`): batch orchestration over independent
    per-file pipelines.

Text is modelled as `List Char`; masses and weight fractions as `ℚ`
(Python floats are treated as exact rationals; every claim settled here is
decided by branch structure or by exact arithmetic identities, not by
floating-point rounding).  The external element → atomic-number resolver
(the `mendeleev` library behind `get_atomic_number`) is treated as an opaque
parameter `zfun : List Char → Option ℕ`, as the specification directs.
-/

set_option linter.unusedVariables false

namespace ScalePower

abbrev Chars := List Char

/-- The ASCII apostrophe (code 39) used as the case-name quote in the
ORIGEN output markers. -/
def quoteC : Char := Char.ofNat 39

/-! ## Basic string helpers shared by the embedded functions -/

/-- Python `str.strip()`: drop whitespace from both ends. -/
def trimL (l : Chars) : Chars :=
  ((l.dropWhile Char.isWhitespace).reverse.dropWhile Char.isWhitespace).reverse

/-- Python `str.capitalize()`: first character upper-cased, the rest
lower-cased. -/
def capitalizePy (l : Chars) : Chars :=
  match l with
  | [] => []
  | c :: cs => c.toUpper :: cs.map Char.toLower

/-- Python `str.lower()` character-wise. -/
def toLowerL (l : Chars) : Chars := l.map Char.toLower

/-- Python `s.endswith(c)` for a single character `c`. -/
def endsWithChar (l : Chars) (c : Char) : Bool := decide (l.getLast? = some c)

/-- First character equals `c` (Python `str.startswith` for one character). -/
def headIs (l : Chars) (c : Char) : Bool :=
  match l with
  | [] => false
  | a :: _ => decide (a = c)

/-- Substring test: Python `sub in hay`. -/
def containsSub (hay sub : Chars) : Bool :=
  match hay with
  | [] => sub.isPrefixOf ([] : Chars)
  | _ :: t => sub.isPrefixOf hay || containsSub t sub

/-- Python `str.split()` with no argument: split on runs of whitespace,
dropping empty tokens.  `acc` holds the characters of the token currently
being read, in reverse. -/
def splitWsGo : Chars → Chars → List Chars
  | [], acc => if acc = [] then [] else [acc.reverse]
  | c :: cs, acc =>
    if c.isWhitespace then
      if acc = [] then splitWsGo cs [] else acc.reverse :: splitWsGo cs []
    else splitWsGo cs (c :: acc)

def pySplitWs (l : Chars) : List Chars := splitWsGo l []

/-- Digit characters of a string, in order (Python
`filter(str.isdigit, s)`; ASCII digits, which is all the ORIGEN tables
contain). -/
def digitsOf (l : Chars) : Chars := l.filter Char.isDigit

/-- Numeric value of a string of decimal digits (Python `int(s)`). -/
def digitsVal (ds : Chars) : Nat := ds.foldl (fun n c => n * 10 + (c.toNat - 48)) 0

/-! ## ZAID conversion: `OptimizedORIGENParser.nuclide_to_zaid`
(src/tools/parseOutput.py lines 90-123) -/

/-- A separator character of the nuclide name: `re.split(r'[-_]', name)`. -/
def isSepChar (c : Char) : Bool := decide (c = '-') || decide (c = '_')

/-- `re.split(r'[-_]', name)`: split at every separator, keeping empty
pieces, exactly as `re.split` does. -/
def splitSepL : Chars → List Chars
  | [] => [[]]
  | c :: cs =>
    if isSepChar c then [] :: splitSepL cs
    else
      match splitSepL cs with
      | [] => [[c]]
      | p :: ps => (c :: p) :: ps

/-- The capitalized symbol of americium, for the hard-coded Am-242
exception. -/
def amSymbol : Chars := ['A', 'm']

/-- `nuclide_to_zaid` from src/tools/parseOutput.py.  The Python unpacking
`element_part, mass_part = re.split(...)` raises (caught, yielding `None`)
unless the split has exactly two pieces; `int('')` likewise raises when the
mass part has no digit.  The metastable test is `mass_part.endswith('m')`,
a case-sensitive check on the final character. -/
def nuclideToZaid (zfun : Chars → Option Nat) (name : Chars) : Option Nat :=
  match splitSepL name with
  | [ep, mp] =>
    let en := capitalizePy (trimL ep)
    match zfun en with
    | none => none
    | some z =>
      let ds := digitsOf mp
      if ds = [] then none
      else
        let a := digitsVal ds
        let zaid0 := if endsWithChar mp 'm' then z * 1000 + a + 400 else z * 1000 + a
        let zaid := if en = amSymbol ∧ a = 242 then
            (if endsWithChar mp 'm' then 95242 else 95642)
          else zaid0
        some zaid
  | _ => none

/-- The ZAID the specification's derivation rule assigns, given the resolved
atomic number `z` and the (capitalized, trimmed) element symbol, with the
lowercase-`m` metastable convention actually implemented by the source. -/
def zaidFormula (z : Nat) (en : Chars) (mp : Chars) : Nat :=
  let a := digitsVal (digitsOf mp)
  let meta := endsWithChar mp 'm'
  if en = amSymbol ∧ a = 242 then (if meta then 95242 else 95642)
  else if meta then z * 1000 + a + 400 else z * 1000 + a

/-- A concrete instance of the opaque element → atomic-number resolver,
restricted to the elements appearing in the specification's examples.  Used
only to instantiate witnesses and counterexamples; the theorems quantify
over the resolver. -/
def zTable (s : Chars) : Option Nat :=
  if s = "H".toList then some 1
  else if s = "He".toList then some 2
  else if s = "Xe".toList then some 54
  else if s = "U".toList then some 92
  else if s = "Pu".toList then some 94
  else if s = "Am".toList then some 95
  else none

/-! ### Splitting lemmas for the nuclide name -/

theorem splitSepL_ne_nil (l : Chars) : splitSepL l ≠ [] := by
  induction l with
  | nil => simp [splitSepL]
  | cons c cs ih =>
    simp only [splitSepL]
    by_cases h : isSepChar c
    · simp [h]
    · simp only [h, if_neg, Bool.false_eq_true, if_false]
      cases hs : splitSepL cs with
      | nil => simp
      | cons p ps => simp

theorem splitSepL_sepFree (l : Chars) (h : ∀ c ∈ l, isSepChar c = false) :
    splitSepL l = [l] := by
  induction l with
  | nil => rfl
  | cons c cs ih =>
    have hc : isSepChar c = false := h c (by simp)
    have hcs : splitSepL cs = [cs] := ih (fun d hd => h d (by simp [hd]))
    simp [splitSepL, hc, hcs]

theorem splitSepL_two (ep mp : Chars) (sep : Char)
    (hsep : isSepChar sep = true)
    (hep : ∀ c ∈ ep, isSepChar c = false)
    (hmp : ∀ c ∈ mp, isSepChar c = false) :
    splitSepL (ep ++ sep :: mp) = [ep, mp] := by
  induction ep with
  | nil =>
    simp only [List.nil_append, splitSepL, hsep, if_true]
    rw [splitSepL_sepFree mp hmp]
  | cons c cs ih =>
    have hc : isSepChar c = false := hep c (by simp)
    have hcs : splitSepL (cs ++ sep :: mp) = [cs, mp] :=
      ih (fun d hd => hep d (by simp [hd]))
    simp [splitSepL, hc, hcs]

/-! ### Claim C1: the ZAID formula and the Am-242 exception -/

/-- C1 (amended): for every nuclide name of the form
element-part · separator · mass-part (separator `-` or `_`), the conversion
returns `z*1000 + a` for a ground state and `z*1000 + a + 400` when the
mass-part ends in a lowercase `m` (the check is case-sensitive, not
case-insensitive as the claim states); any name resolving to element Am
with mass number 242 maps to 95242 with a lowercase `m` suffix and to
95642 otherwise. -/
theorem c1_zaid_formula (zfun : Chars → Option Nat) (ep mp : Chars) (sep : Char)
    (z : Nat)
    (hsep : isSepChar sep = true)
    (hep : ∀ c ∈ ep, isSepChar c = false)
    (hmp : ∀ c ∈ mp, isSepChar c = false)
    (hz : zfun (capitalizePy (trimL ep)) = some z)
    (hd : digitsOf mp ≠ []) :
    nuclideToZaid zfun (ep ++ sep :: mp)
      = some (zaidFormula z (capitalizePy (trimL ep)) mp) := by
  rw [nuclideToZaid, splitSepL_two ep mp sep hsep hep hmp]
  simp only [hz, hd, if_neg, zaidFormula]
  by_cases ham : capitalizePy (trimL ep) = amSymbol ∧ digitsVal (digitsOf mp) = 242
  · simp [hd, ham]
  · by_cases hm : endsWithChar mp 'm' = true <;> simp [hd, ham, hm]

/-- C1 witness: `Xe_135m` with resolver value 54 yields the metastable
ZAID 54535 = 54*1000 + 135 + 400. -/
theorem c1_zaid_formula_witness :
    (isSepChar '_' = true ∧ zTable (capitalizePy (trimL "Xe".toList)) = some 54
      ∧ digitsOf "135m".toList ≠ [])
    ∧ nuclideToZaid zTable ("Xe".toList ++ '_' :: "135m".toList)
        = some (zaidFormula 54 (capitalizePy (trimL "Xe".toList)) "135m".toList) :=
  ⟨⟨by decide, by decide, by decide⟩,
    c1_zaid_formula zTable "Xe".toList "135m".toList '_' 54
      (by decide) (by decide) (by decide) (by decide) (by decide)⟩

/-- C1 counterexample: the claim reads the metastable suffix test as
case-insensitive, so on `Xe-135M` it prescribes the metastable ZAID
54*1000 + 135 + 400 = 54535; the source's `mass_part.endswith('m')` is
case-sensitive, so the code returns the ground-state ZAID 54135. -/
theorem c1_uppercase_m_counterexample :
    nuclideToZaid zTable ("Xe-135M".toList) = some 54135
    ∧ Char.toLower 'M' = 'm'
    ∧ (54135 : Nat) ≠ 54 * 1000 + 135 + 400 := by
  refine ⟨by decide, by decide, by decide⟩

/-! ## Isotope availability: `is_isotope_available`
(src/tools/parseOutput.py lines 125-129).  The loaded ENDF8 set is modelled
as a list of ZAIDs; the empty list is the "no registry file found" fallback
that treats every isotope as available. -/

def isIsotopeAvailable (avail : List Nat) (zaid : Nat) : Bool :=
  if avail = [] then true else decide (zaid ∈ avail)

/-! ## Material generation: `generate_mcnp_materials`
(src/tools/parseOutput.py lines 274-354) -/

/-- One row of the combined DataFrame handed to the generator: nuclide name
and mass in grams (the `TimeColumn`/`CaseName` columns play no part in the
claims and are omitted). -/
structure Row where
  nuclide : Chars
  mass : ℚ
deriving DecidableEq

/-- `df['Mass'].sum()`. -/
def sumMass (rows : List Row) : ℚ := (rows.map Row.mass).sum

/-- The surrogate ZAID (`self.helium_zaid = 2004`). -/
def heliumZaid : Nat := 2004

/-- The generator's significance cutoff: fractions `< 1e-9` are skipped. -/
def fracCutoff : ℚ := 1 / 10 ^ 9

/-- `processed_zaids[zaid] = processed_zaids.get(zaid, 0) + w` on a Python
dict modelled as an association list with distinct keys: add to the first
entry with the key, or append a new entry. -/
def addFrac : List (Nat × ℚ) → Nat → ℚ → List (Nat × ℚ)
  | [], z, w => [(z, w)]
  | (k, v) :: rest, z, w =>
    if k = z then (k, v + w) :: rest else (k, v) :: addFrac rest z w

/-- One iteration of the `for _, row in df.iterrows()` loop of
`generate_mcnp_materials`: the accumulator carries
(`processed_zaids`, `helium_mass`). -/
def stepRow (zfun : Chars → Option Nat) (avail : List Nat) (total : ℚ)
    (acc : List (Nat × ℚ) × ℚ) (r : Row) : List (Nat × ℚ) × ℚ :=
  match nuclideToZaid zfun r.nuclide with
  | none => (acc.1, acc.2 + r.mass)
  | some z =>
    if isIsotopeAvailable avail z then
      let wf := r.mass / total
      if wf < fracCutoff then acc
      else (addFrac acc.1 z wf, acc.2)
    else (acc.1, acc.2 + r.mass)

/-- The state (`processed_zaids`, `helium_mass`) after the generator's row
loop, with `total_mass` computed from the same rows. -/
def loopState (zfun : Chars → Option Nat) (avail : List Nat) (rows : List Row) :
    List (Nat × ℚ) × ℚ :=
  rows.foldl (stepRow zfun avail (sumMass rows)) ([], 0)

/-- The scalar and table outputs of `generate_mcnp_materials`.  The material
card text lists exactly the `fracs` entries (sorted by ZAID) plus comment
lines, so the claims about the emitted fraction table are claims about
`fracs`. -/
structure MatResult where
  total : ℚ
  density : ℚ
  fracs : List (Nat × ℚ)
  heliumMass : ℚ
deriving DecidableEq

/-- `generate_mcnp_materials` on a non-empty DataFrame.  In the source,
dividing by a zero `total_mass` is a numpy float64 division: it yields
NaN/Inf with a `RuntimeWarning` and does not raise, so the control flow
never branches on the division itself; with `ℚ` the zero-total case is the
one place the numeric values diverge from the float run (claim C3). -/
def generateMaterials (zfun : Chars → Option Nat) (avail : List Nat)
    (volume : ℚ) (rows : List Row) : MatResult :=
  let total := sumMass rows
  let st := loopState zfun avail rows
  let fracs := if st.2 > 0 then addFrac st.1 heliumZaid (st.2 / total) else st.1
  { total := total, density := total / volume, fracs := fracs, heliumMass := st.2 }

/-- `generate_mcnp_materials` with its failure behaviour: the only statement
that can raise on a well-typed DataFrame is `df['TimeColumn'].iloc[0]`,
which raises `IndexError` exactly when the frame is empty.  No other step
raises: ZAID conversion catches its own exceptions and returns `None`, and
numpy float division never raises. -/
def generateMaterialsE (zfun : Chars → Option Nat) (avail : List Nat)
    (volume : ℚ) (rows : List Row) : Except String MatResult :=
  if rows = [] then Except.error "IndexError: index 0 is out of bounds"
  else Except.ok (generateMaterials zfun avail volume rows)

def isOkE (e : Except String MatResult) : Bool :=
  match e with
  | Except.ok _ => true
  | Except.error _ => false

/-! ### Row classification along the generator's branches -/

/-- The row's mass is routed to the helium surrogate: the ZAID conversion
failed, or the ZAID is not available in the loaded set. -/
def routesToHelium (zfun : Chars → Option Nat) (avail : List Nat) (r : Row) : Bool :=
  match nuclideToZaid zfun r.nuclide with
  | none => true
  | some z => !isIsotopeAvailable avail z

/-- The row is dropped by the `weight_fraction < 1e-9` significance test
(only reachable for resolvable, available rows). -/
def isDiscarded (zfun : Chars → Option Nat) (avail : List Nat) (total : ℚ)
    (r : Row) : Bool :=
  match nuclideToZaid zfun r.nuclide with
  | none => false
  | some z => isIsotopeAvailable avail z && decide (r.mass / total < fracCutoff)

/-- The row contributes its own weight-fraction entry. -/
def isKept (zfun : Chars → Option Nat) (avail : List Nat) (total : ℚ)
    (r : Row) : Bool :=
  !routesToHelium zfun avail r && !isDiscarded zfun avail total r

def routedMass (zfun : Chars → Option Nat) (avail : List Nat) (rows : List Row) : ℚ :=
  ((rows.filter (routesToHelium zfun avail)).map Row.mass).sum

def discardedMass (zfun : Chars → Option Nat) (avail : List Nat) (rows : List Row) : ℚ :=
  ((rows.filter (isDiscarded zfun avail (sumMass rows))).map Row.mass).sum

def keptMass (zfun : Chars → Option Nat) (avail : List Nat) (total : ℚ)
    (rows : List Row) : ℚ :=
  ((rows.filter (isKept zfun avail total)).map Row.mass).sum

/-- Mass of the rows whose nuclide name the resolver cannot convert at all. -/
def unresolvedMass (zfun : Chars → Option Nat) (rows : List Row) : ℚ :=
  ((rows.filter (fun r => (nuclideToZaid zfun r.nuclide).isNone)).map Row.mass).sum

/-- Keys (ZAIDs) of a fraction table. -/
def keysOf (m : List (Nat × ℚ)) : List Nat := m.map Prod.fst

/-- Sum of the weight fractions of a fraction table. -/
def sumVals (m : List (Nat × ℚ)) : ℚ := (m.map Prod.snd).sum

/-- Value stored for key `k`, or 0 when absent (`dict.get(k, 0)`). -/
def lookupD (m : List (Nat × ℚ)) (k : Nat) : ℚ :=
  match m.find? (fun p => decide (p.1 = k)) with
  | some p => p.2
  | none => 0

/-! ### Association-list lemmas for the `processed_zaids` dict -/

theorem addFrac_sumVals (m : List (Nat × ℚ)) (z : Nat) (w : ℚ) :
    sumVals (addFrac m z w) = sumVals m + w := by
  induction m with
  | nil => simp [addFrac, sumVals]
  | cons p rest ih =>
    obtain ⟨k, v⟩ := p
    by_cases h : k = z
    · simp [addFrac, h, sumVals]; ring
    · simp only [addFrac, h, if_neg, if_false]
      simp [sumVals] at ih ⊢
      rw [ih]; ring

theorem addFrac_keys (m : List (Nat × ℚ)) (z : Nat) (w : ℚ) :
    keysOf (addFrac m z w)
      = if z ∈ keysOf m then keysOf m else keysOf m ++ [z] := by
  induction m with
  | nil => simp [addFrac, keysOf]
  | cons p rest ih =>
    obtain ⟨k, v⟩ := p
    by_cases h : k = z
    · simp [addFrac, h, keysOf]
    · simp only [addFrac, h, if_neg, if_false, keysOf, List.map_cons]
      simp only [keysOf] at ih
      rw [ih]
      by_cases hz : z ∈ rest.map Prod.fst
      · simp [hz, Ne.symm h]
      · simp [hz, Ne.symm h]

theorem addFrac_keys_nodup (m : List (Nat × ℚ)) (z : Nat) (w : ℚ)
    (h : (keysOf m).Nodup) : (keysOf (addFrac m z w)).Nodup := by
  rw [addFrac_keys]
  by_cases hz : z ∈ keysOf m
  · simpa [hz]
  · rw [if_neg hz]
    refine List.Nodup.append h (List.nodup_singleton z) ?_
    intro x hx hxz
    rw [List.mem_singleton] at hxz
    exact hz (hxz ▸ hx)

theorem addFrac_mem_keys (m : List (Nat × ℚ)) (z : Nat) (w : ℚ) :
    z ∈ keysOf (addFrac m z w) := by
  rw [addFrac_keys]
  by_cases hz : z ∈ keysOf m <;> simp [hz]

theorem addFrac_lookupD (m : List (Nat × ℚ)) (z : Nat) (w : ℚ) :
    lookupD (addFrac m z w) z = lookupD m z + w := by
  induction m with
  | nil => simp [addFrac, lookupD, List.find?]
  | cons p rest ih =>
    obtain ⟨k, v⟩ := p
    by_cases h : k = z
    · subst h
      show lookupD (addFrac ((k, v) :: rest) k w) k = lookupD ((k, v) :: rest) k + w
      unfold addFrac
      rw [if_pos rfl]
      unfold lookupD
      rw [List.find?_cons_of_pos _ (by simp), List.find?_cons_of_pos _ (by simp)]
    · simp only [addFrac, if_neg h]
      simp only [lookupD] at ih ⊢
      rw [List.find?_cons_of_neg _ (by simp [h]), List.find?_cons_of_neg _ (by simp [h])]
      exact ih

/-! ### The generator loop, branch by branch -/

theorem stepRow_route (zfun : Chars → Option Nat) (avail : List Nat) (t : ℚ)
    (acc : List (Nat × ℚ) × ℚ) (r : Row)
    (h : routesToHelium zfun avail r = true) :
    stepRow zfun avail t acc r = (acc.1, acc.2 + r.mass) := by
  unfold stepRow routesToHelium at *
  cases hz : nuclideToZaid zfun r.nuclide with
  | none => simp
  | some z =>
    simp only [hz, Bool.not_eq_true'] at h
    simp [h]

theorem stepRow_discard (zfun : Chars → Option Nat) (avail : List Nat) (t : ℚ)
    (acc : List (Nat × ℚ) × ℚ) (r : Row)
    (h : isDiscarded zfun avail t r = true) :
    stepRow zfun avail t acc r = acc := by
  unfold stepRow isDiscarded at *
  cases hz : nuclideToZaid zfun r.nuclide with
  | none => simp [hz] at h
  | some z =>
    simp only [hz] at h ⊢
    simp only [Bool.and_eq_true, decide_eq_true_eq] at h
    simp [h.1, h.2]

theorem stepRow_keep (zfun : Chars → Option Nat) (avail : List Nat) (t : ℚ)
    (acc : List (Nat × ℚ) × ℚ) (r : Row)
    (h : isKept zfun avail t r = true) :
    ∃ z, nuclideToZaid zfun r.nuclide = some z
      ∧ isIsotopeAvailable avail z = true
      ∧ ¬ (r.mass / t < fracCutoff)
      ∧ stepRow zfun avail t acc r = (addFrac acc.1 z (r.mass / t), acc.2) := by
  unfold isKept routesToHelium isDiscarded at h
  cases hz : nuclideToZaid zfun r.nuclide with
  | none => simp [hz] at h
  | some z =>
    simp only [hz, Bool.and_eq_true, Bool.not_eq_true'] at h
    obtain ⟨h1, h2⟩ := h
    have h1' : isIsotopeAvailable avail z = true := by simpa using h1
    have hwf : ¬ (r.mass / t < fracCutoff) := by
      rw [h1'] at h2
      simpa using h2
    refine ⟨z, rfl, h1', hwf, ?_⟩
    unfold stepRow
    simp [hz, h1', hwf]

/-- Exactly one of the three branch classifications holds for each row. -/
theorem row_classify (zfun : Chars → Option Nat) (avail : List Nat) (t : ℚ)
    (r : Row) :
    (routesToHelium zfun avail r = true ∧ isDiscarded zfun avail t r = false
        ∧ isKept zfun avail t r = false)
    ∨ (routesToHelium zfun avail r = false ∧ isDiscarded zfun avail t r = true
        ∧ isKept zfun avail t r = false)
    ∨ (routesToHelium zfun avail r = false ∧ isDiscarded zfun avail t r = false
        ∧ isKept zfun avail t r = true) := by
  unfold isKept routesToHelium isDiscarded
  cases hz : nuclideToZaid zfun r.nuclide with
  | none => simp
  | some z =>
    cases hav : isIsotopeAvailable avail z with
    | false => simp [hav]
    | true =>
      by_cases hwf : r.mass / t < fracCutoff
      · simp [hav, hwf]
      · simp [hav, hwf]

theorem loop_snd (zfun : Chars → Option Nat) (avail : List Nat) (t : ℚ) :
    ∀ (rows : List Row) (acc : List (Nat × ℚ) × ℚ),
      (List.foldl (stepRow zfun avail t) acc rows).2
        = acc.2 + ((rows.filter (routesToHelium zfun avail)).map Row.mass).sum := by
  intro rows
  induction rows with
  | nil => simp
  | cons r rs ih =>
    intro acc
    rcases row_classify zfun avail t r with ⟨h1, h2, h3⟩ | ⟨h1, h2, h3⟩ | ⟨h1, h2, h3⟩
    · rw [List.foldl_cons, stepRow_route _ _ _ _ _ h1, ih]
      simp [List.filter_cons, h1]
      ring
    · rw [List.foldl_cons, stepRow_discard _ _ _ _ _ h2, ih]
      simp [List.filter_cons, h1]
    · obtain ⟨z, hz, hav, hwf, hstep⟩ := stepRow_keep zfun avail t acc r h3
      rw [List.foldl_cons, hstep, ih]
      simp [List.filter_cons, h1]

theorem loop_fst_sum (zfun : Chars → Option Nat) (avail : List Nat) (t : ℚ) :
    ∀ (rows : List Row) (acc : List (Nat × ℚ) × ℚ),
      sumVals (List.foldl (stepRow zfun avail t) acc rows).1
        = sumVals acc.1
          + ((rows.filter (isKept zfun avail t)).map Row.mass).sum / t := by
  intro rows
  induction rows with
  | nil => simp
  | cons r rs ih =>
    intro acc
    rcases row_classify zfun avail t r with ⟨h1, h2, h3⟩ | ⟨h1, h2, h3⟩ | ⟨h1, h2, h3⟩
    · rw [List.foldl_cons, stepRow_route _ _ _ _ _ h1, ih]
      simp [List.filter_cons, h3]
    · rw [List.foldl_cons, stepRow_discard _ _ _ _ _ h2, ih]
      simp [List.filter_cons, h3]
    · obtain ⟨z, hz, hav, hwf, hstep⟩ := stepRow_keep zfun avail t acc r h3
      rw [List.foldl_cons, hstep, ih]
      simp only [List.filter_cons, h3, if_pos, List.map_cons, List.sum_cons,
        addFrac_sumVals]
      rw [add_div]
      ring

theorem loop_keys_avail (zfun : Chars → Option Nat) (avail : List Nat) (t : ℚ) :
    ∀ (rows : List Row) (acc : List (Nat × ℚ) × ℚ) (k : Nat),
      k ∈ keysOf (List.foldl (stepRow zfun avail t) acc rows).1
        → k ∈ keysOf acc.1 ∨ isIsotopeAvailable avail k = true := by
  intro rows
  induction rows with
  | nil => intro acc k h; exact Or.inl (by simpa using h)
  | cons r rs ih =>
    intro acc k h
    rcases row_classify zfun avail t r with ⟨h1, h2, h3⟩ | ⟨h1, h2, h3⟩ | ⟨h1, h2, h3⟩
    · rw [List.foldl_cons, stepRow_route _ _ _ _ _ h1] at h
      exact ih (acc.1, acc.2 + r.mass) k h
    · rw [List.foldl_cons, stepRow_discard _ _ _ _ _ h2] at h
      exact ih _ k h
    · obtain ⟨z, hz, hav, hwf, hstep⟩ := stepRow_keep zfun avail t acc r h3
      rw [List.foldl_cons, hstep] at h
      rcases ih _ k h with hk | hk
      · rw [addFrac_keys] at hk
        by_cases hzk : z ∈ keysOf acc.1
        · rw [if_pos hzk] at hk
          exact Or.inl hk
        · rw [if_neg hzk] at hk
          rcases List.mem_append.mp hk with hk | hk
          · exact Or.inl hk
          · rw [List.mem_singleton] at hk
            exact Or.inr (hk ▸ hav)
      · exact Or.inr hk

theorem loop_keys_nodup (zfun : Chars → Option Nat) (avail : List Nat) (t : ℚ) :
    ∀ (rows : List Row) (acc : List (Nat × ℚ) × ℚ),
      (keysOf acc.1).Nodup
        → (keysOf (List.foldl (stepRow zfun avail t) acc rows).1).Nodup := by
  intro rows
  induction rows with
  | nil => intro acc h; simpa using h
  | cons r rs ih =>
    intro acc h
    rcases row_classify zfun avail t r with ⟨h1, h2, h3⟩ | ⟨h1, h2, h3⟩ | ⟨h1, h2, h3⟩
    · rw [List.foldl_cons, stepRow_route _ _ _ _ _ h1]
      exact ih (acc.1, acc.2 + r.mass) h
    · rw [List.foldl_cons, stepRow_discard _ _ _ _ _ h2]
      exact ih _ h
    · obtain ⟨z, hz, hav, hwf, hstep⟩ := stepRow_keep zfun avail t acc r h3
      rw [List.foldl_cons, hstep]
      exact ih (addFrac acc.1 z (r.mass / t), acc.2) (addFrac_keys_nodup _ _ _ h)

/-- The total mass splits along the three generator branches. -/
theorem mass_partition (zfun : Chars → Option Nat) (avail : List Nat) (t : ℚ) :
    ∀ rows : List Row,
      (rows.map Row.mass).sum
        = ((rows.filter (isKept zfun avail t)).map Row.mass).sum
          + ((rows.filter (isDiscarded zfun avail t)).map Row.mass).sum
          + ((rows.filter (routesToHelium zfun avail)).map Row.mass).sum := by
  intro rows
  induction rows with
  | nil => simp
  | cons r rs ih =>
    rcases row_classify zfun avail t r with ⟨h1, h2, h3⟩ | ⟨h1, h2, h3⟩ | ⟨h1, h2, h3⟩
      <;> simp [List.filter_cons, h1, h2, h3, ih] <;> ring

/-- Rows skipped by the significance test are no-ops for the loop: the loop
over all rows equals the loop over the rows that survive the test, with the
total (hence every weight fraction) still computed from all rows. -/
theorem loop_filter_discard (zfun : Chars → Option Nat) (avail : List Nat) (t : ℚ) :
    ∀ (rows : List Row) (acc : List (Nat × ℚ) × ℚ),
      List.foldl (stepRow zfun avail t) acc rows
        = List.foldl (stepRow zfun avail t) acc
            (rows.filter (fun r => !isDiscarded zfun avail t r)) := by
  intro rows
  induction rows with
  | nil => simp
  | cons r rs ih =>
    intro acc
    by_cases hd : isDiscarded zfun avail t r = true
    · rw [List.foldl_cons, stepRow_discard _ _ _ _ _ hd]
      simp only [List.filter_cons, hd, Bool.not_true, if_neg, Bool.false_eq_true,
        if_false]
      exact ih acc
    · have hd' : isDiscarded zfun avail t r = false := by
        cases hb : isDiscarded zfun avail t r
        · rfl
        · exact absurd hb hd
      simp only [List.filter_cons, hd', Bool.not_false, if_pos, List.foldl_cons]
      exact ih _

theorem generateMaterials_fracs (zfun : Chars → Option Nat) (avail : List Nat)
    (volume : ℚ) (rows : List Row) :
    (generateMaterials zfun avail volume rows).fracs
      = if (loopState zfun avail rows).2 > 0
        then addFrac (loopState zfun avail rows).1 heliumZaid
          ((loopState zfun avail rows).2 / sumMass rows)
        else (loopState zfun avail rows).1 := rfl

theorem generateMaterials_total (zfun : Chars → Option Nat) (avail : List Nat)
    (volume : ℚ) (rows : List Row) :
    (generateMaterials zfun avail volume rows).total = sumMass rows := rfl

theorem generateMaterials_density (zfun : Chars → Option Nat) (avail : List Nat)
    (volume : ℚ) (rows : List Row) :
    (generateMaterials zfun avail volume rows).density = sumMass rows / volume := rfl

theorem generateMaterials_helium (zfun : Chars → Option Nat) (avail : List Nat)
    (volume : ℚ) (rows : List Row) :
    (generateMaterials zfun avail volume rows).heliumMass
      = (loopState zfun avail rows).2 := rfl

theorem loopState_snd (zfun : Chars → Option Nat) (avail : List Nat)
    (rows : List Row) :
    (loopState zfun avail rows).2 = routedMass zfun avail rows := by
  unfold loopState routedMass
  rw [loop_snd]
  simp

theorem loopState_fst_sum (zfun : Chars → Option Nat) (avail : List Nat)
    (rows : List Row) :
    sumVals (loopState zfun avail rows).1
      = keptMass zfun avail (sumMass rows) rows / sumMass rows := by
  unfold loopState keptMass
  rw [loop_fst_sum]
  simp [sumVals]

/-- `mass_partition` at the generator's actual total. -/
theorem sumMass_partition (zfun : Chars → Option Nat) (avail : List Nat)
    (rows : List Row) :
    sumMass rows
      = keptMass zfun avail (sumMass rows) rows
        + discardedMass zfun avail rows + routedMass zfun avail rows :=
  mass_partition zfun avail (sumMass rows) rows

theorem mem_keys_addFrac_elim {m : List (Nat × ℚ)} {z k : Nat} {w : ℚ}
    (h : k ∈ keysOf (addFrac m z w)) : k ∈ keysOf m ∨ k = z := by
  rw [addFrac_keys] at h
  by_cases hz : z ∈ keysOf m
  · rw [if_pos hz] at h
    exact Or.inl h
  · rw [if_neg hz] at h
    rcases List.mem_append.mp h with h | h
    · exact Or.inl h
    · exact Or.inr (List.mem_singleton.mp h)

theorem avail_true_mem {avail : List Nat} {k : Nat} (hne : avail ≠ [])
    (h : isIsotopeAvailable avail k = true) : k ∈ avail := by
  unfold isIsotopeAvailable at h
  rw [if_neg hne] at h
  exact of_decide_eq_true h

theorem routedMass_nonneg (zfun : Chars → Option Nat) (avail : List Nat)
    (rows : List Row) (hm : ∀ r ∈ rows, 0 ≤ r.mass) :
    0 ≤ routedMass zfun avail rows := by
  unfold routedMass
  refine List.sum_nonneg ?_
  intro x hx
  rw [List.mem_map] at hx
  obtain ⟨r, hr, hrx⟩ := hx
  exact hrx ▸ hm r (List.mem_of_mem_filter hr)

/-! ### Claim C2: the fraction-sum invariant and the key-membership invariant -/

/-- Exact value of the emitted fraction sum: the discarded sub-cutoff mass
is the only mass missing from it. -/
theorem gen_fraction_sum (zfun : Chars → Option Nat) (avail : List Nat)
    (volume : ℚ) (rows : List Row) (hm : ∀ r ∈ rows, 0 ≤ r.mass) :
    sumVals (generateMaterials zfun avail volume rows).fracs
      = (sumMass rows - discardedMass zfun avail rows) / sumMass rows := by
  have hpart := sumMass_partition zfun avail rows
  have hroute := routedMass_nonneg zfun avail rows hm
  rw [generateMaterials_fracs]
  by_cases hpos : (loopState zfun avail rows).2 > 0
  · rw [if_pos hpos, addFrac_sumVals, loopState_fst_sum, loopState_snd,
      div_add_div_same]
    congr 1
    linarith
  · rw [if_neg hpos, loopState_fst_sum]
    have hzero : routedMass zfun avail rows = 0 := by
      rw [loopState_snd] at hpos
      linarith
    congr 1
    linarith

/-- C2 (amended): for every generated composition from rows of nonnegative
masses, the sum of all emitted weight fractions, surrogate entry included,
equals `(total − D) / total` exactly, where `D` is the mass of the rows
discarded by the generator's `weight_fraction < 1e-9` significance cutoff —
so it equals 1 exactly when nothing is discarded, but falls short of 1 by
`D / total`, which can exceed the claimed 1e-6 relative tolerance (see the
counterexample).  Every ZAID key of the fraction table is a member of a
non-empty Isotope Availability Set or is the surrogate ZAID 2004, as the
claim states. -/
theorem c2_fraction_sum_and_keys (zfun : Chars → Option Nat) (avail : List Nat)
    (volume : ℚ) (rows : List Row) (hm : ∀ r ∈ rows, 0 ≤ r.mass) :
    sumVals (generateMaterials zfun avail volume rows).fracs
      = (sumMass rows - discardedMass zfun avail rows) / sumMass rows
    ∧ ∀ k ∈ keysOf (generateMaterials zfun avail volume rows).fracs,
        avail ≠ [] → k ∈ avail ∨ k = heliumZaid := by
  refine ⟨gen_fraction_sum zfun avail volume rows hm, ?_⟩
  intro k hk hne
  rw [generateMaterials_fracs] at hk
  have hbase : ∀ k, k ∈ keysOf (loopState zfun avail rows).1
      → k ∈ avail ∨ k = heliumZaid := by
    intro k hk
    rcases loop_keys_avail zfun avail (sumMass rows) rows ([], 0) k hk with h | h
    · simp [keysOf] at h
    · exact Or.inl (avail_true_mem hne h)
  by_cases hpos : (loopState zfun avail rows).2 > 0
  · rw [if_pos hpos] at hk
    rcases mem_keys_addFrac_elim hk with hk | hk
    · exact hbase k hk
    · exact Or.inr hk
  · rw [if_neg hpos] at hk
    exact hbase k hk

/-- The specification's own example table: U-235 10 g, Pu-239 5 g,
Xe-135m 0.02 g. -/
def c2WitnessRows : List Row :=
  [⟨"U-235".toList, 10⟩, ⟨"Pu-239".toList, 5⟩, ⟨"Xe-135m".toList, 1 / 50⟩]

/-- C2 witness: on the specification's example table with a permissive
(empty) availability set, nothing is discarded and the fractions sum to
`(total − 0) / total = 1` exactly. -/
theorem c2_fraction_sum_and_keys_witness :
    (∀ r ∈ c2WitnessRows, 0 ≤ r.mass)
    ∧ (sumVals (generateMaterials zTable [] 10 c2WitnessRows).fracs
        = (sumMass c2WitnessRows - discardedMass zTable [] c2WitnessRows)
            / sumMass c2WitnessRows
      ∧ ∀ k ∈ keysOf (generateMaterials zTable [] 10 c2WitnessRows).fracs,
          ([] : List Nat) ≠ [] → k ∈ ([] : List Nat) ∨ k = heliumZaid) :=
  ⟨by with_unfolding_all decide,
    c2_fraction_sum_and_keys zTable [] 10 c2WitnessRows (by with_unfolding_all decide)⟩

/-- A row whose weight fraction is just under the 1e-9 cutoff. -/
def c2TinyRow : Row := ⟨"H-2".toList, 999 / 10 ^ 12⟩

/-- 1002 sub-cutoff rows (each discarded individually) next to one
dominant row: their combined discarded mass exceeds 1e-6 of the total. -/
def c2CexRows : List Row := ⟨"U-235".toList, 1⟩ :: List.replicate 1002 c2TinyRow

theorem filter_replicate_of_pos {α : Type} {p : α → Bool} {a : α}
    (h : p a = true) (n : Nat) :
    List.filter p (List.replicate n a) = List.replicate n a := by
  induction n with
  | zero => rfl
  | succ n ih => simp [List.replicate_succ, List.filter_cons, h, ih]

/-- C2 counterexample: a generated composition whose fraction sum falls
short of 1.0 by more than the claimed 1e-6 relative tolerance, because each
of the 1002 discarded rows loses just under 1e-9 of weight fraction. -/
theorem c2_tolerance_counterexample :
    sumVals (generateMaterials zTable [] 10 c2CexRows).fracs
      < 1 - 1 / 10 ^ 6 := by
  have hm : ∀ r ∈ c2CexRows, 0 ≤ r.mass := by
    intro r hr
    rcases List.mem_cons.mp hr with h | h
    · rw [h]
      with_unfolding_all decide
    · rw [List.eq_of_mem_replicate h]
      with_unfolding_all decide
  have htot : sumMass c2CexRows = (1000001000998 : ℚ) / 10 ^ 12 := by
    unfold sumMass c2CexRows
    rw [List.map_cons, List.map_replicate, List.sum_cons, List.sum_replicate,
      nsmul_eq_mul]
    show (1 : ℚ) + 1002 * c2TinyRow.mass = _
    rw [show c2TinyRow.mass = 999 / 10 ^ 12 from rfl]
    norm_num
  have hU : isDiscarded zTable [] ((1000001000998 : ℚ) / 10 ^ 12)
      ⟨"U-235".toList, 1⟩ = false := by
    with_unfolding_all decide
  have hT : isDiscarded zTable [] ((1000001000998 : ℚ) / 10 ^ 12)
      c2TinyRow = true := by
    with_unfolding_all decide
  have hD : discardedMass zTable [] c2CexRows = 1002 * ((999 : ℚ) / 10 ^ 12) := by
    unfold discardedMass
    rw [htot]
    unfold c2CexRows
    rw [List.filter_cons]
    simp only [hU, Bool.false_eq_true, if_false]
    rw [filter_replicate_of_pos hT, List.map_replicate, List.sum_replicate,
      nsmul_eq_mul, show c2TinyRow.mass = (999 : ℚ) / 10 ^ 12 from rfl]
    norm_num
  rw [gen_fraction_sum zTable [] 10 c2CexRows hm, htot, hD]
  norm_num

/-! ### Claim C3: behaviour on a zero-total-mass table -/

/-- A non-empty table whose total mass is zero. -/
def zeroMassRows : List Row := [⟨"U-235".toList, 0⟩]

/-- C3 evidence (code bug): on a non-empty table of total mass zero, the
generator does not fail — it returns a composition.  In the source the
weight fractions at this input are numpy `0.0/0.0 = NaN` values emitted
under a mere `RuntimeWarning`, contradicting the claim that generation must
signal an error and never emit NaN/Inf. -/
theorem c3_zero_total_not_rejected :
    sumMass zeroMassRows = 0
    ∧ isOkE (generateMaterialsE zTable [] 10 zeroMassRows) = true := by
  constructor
  · with_unfolding_all decide
  · with_unfolding_all decide

/-! ### Claim C4: surrogate consolidation at ZAID 2004 -/

theorem gen_keys_nodup (zfun : Chars → Option Nat) (avail : List Nat)
    (volume : ℚ) (rows : List Row) :
    (keysOf (generateMaterials zfun avail volume rows).fracs).Nodup := by
  rw [generateMaterials_fracs]
  have hbase : (keysOf (loopState zfun avail rows).1).Nodup := by
    refine loop_keys_nodup zfun avail (sumMass rows) rows ([], 0) ?_
    simp [keysOf]
  by_cases hpos : (loopState zfun avail rows).2 > 0
  · rw [if_pos hpos]
    exact addFrac_keys_nodup _ _ _ hbase
  · rw [if_neg hpos]
    exact hbase

/-- C4: the helium accumulator collects exactly the mass of unresolvable
and unavailable rows; whenever that routed mass is positive, it is
consolidated additively into the single surrogate entry at ZAID 2004
valued `routed / total` on top of any existing 2004 entry; when it is not
positive no surrogate entry is added; and an empty availability set treats
every ZAID as available, so only unresolvable rows are routed. -/
theorem c4_surrogate_consolidation (zfun : Chars → Option Nat) (avail : List Nat)
    (volume : ℚ) (rows : List Row) :
    (generateMaterials zfun avail volume rows).heliumMass
        = routedMass zfun avail rows
    ∧ (keysOf (generateMaterials zfun avail volume rows).fracs).Nodup
    ∧ (0 < routedMass zfun avail rows →
        lookupD (generateMaterials zfun avail volume rows).fracs heliumZaid
            = lookupD (loopState zfun avail rows).1 heliumZaid
              + routedMass zfun avail rows / sumMass rows
          ∧ heliumZaid ∈ keysOf (generateMaterials zfun avail volume rows).fracs
          ∧ List.count heliumZaid
              (keysOf (generateMaterials zfun avail volume rows).fracs) = 1)
    ∧ (¬ 0 < routedMass zfun avail rows →
        (generateMaterials zfun avail volume rows).fracs
          = (loopState zfun avail rows).1)
    ∧ (avail = [] → routedMass zfun avail rows = unresolvedMass zfun rows) := by
  refine ⟨?_, gen_keys_nodup zfun avail volume rows, ?_, ?_, ?_⟩
  · rw [generateMaterials_helium, loopState_snd]
  · intro hpos
    have hpos' : (loopState zfun avail rows).2 > 0 := by
      rw [loopState_snd]; exact hpos
    have hfr : (generateMaterials zfun avail volume rows).fracs
        = addFrac (loopState zfun avail rows).1 heliumZaid
            ((loopState zfun avail rows).2 / sumMass rows) := by
      rw [generateMaterials_fracs, if_pos hpos']
    refine ⟨?_, ?_, ?_⟩
    · rw [hfr, addFrac_lookupD, loopState_snd]
    · rw [hfr]
      exact addFrac_mem_keys _ _ _
    · refine List.count_eq_one_of_mem (gen_keys_nodup zfun avail volume rows) ?_
      rw [hfr]
      exact addFrac_mem_keys _ _ _
  · intro hpos
    have hpos' : ¬ (loopState zfun avail rows).2 > 0 := by
      rw [loopState_snd]; exact hpos
    rw [generateMaterials_fracs, if_neg hpos']
  · intro hav
    subst hav
    unfold routedMass unresolvedMass
    have hfil : List.filter (routesToHelium zfun []) rows
        = List.filter (fun r => (nuclideToZaid zfun r.nuclide).isNone) rows := by
      refine List.filter_congr ?_
      intro r hr
      unfold routesToHelium isIsotopeAvailable
      cases nuclideToZaid zfun r.nuclide <;> simp
    rw [hfil]

/-- A table with one available row (U-235), one resolvable-but-unavailable
row (Pu-239) and one unresolvable row (Zz-9), against the availability set
`{92235}`. -/
def c4WitnessRows : List Row :=
  [⟨"U-235".toList, 10⟩, ⟨"Pu-239".toList, 4⟩, ⟨"Zz-9".toList, 2⟩]

/-- C4 witness: 6 g of 16 g total is routed (4 g unavailable + 2 g
unresolvable) and lands in the single 2004 entry as 6/16 = 3/8. -/
theorem c4_surrogate_consolidation_witness :
    0 < routedMass zTable [92235] c4WitnessRows
    ∧ (lookupD (generateMaterials zTable [92235] 10 c4WitnessRows).fracs heliumZaid
          = lookupD (loopState zTable [92235] c4WitnessRows).1 heliumZaid
            + routedMass zTable [92235] c4WitnessRows / sumMass c4WitnessRows
        ∧ heliumZaid ∈ keysOf (generateMaterials zTable [92235] 10 c4WitnessRows).fracs
        ∧ List.count heliumZaid
            (keysOf (generateMaterials zTable [92235] 10 c4WitnessRows).fracs) = 1) :=
  ⟨by with_unfolding_all decide,
    (c4_surrogate_consolidation zTable [92235] 10 c4WitnessRows).2.2.1
      (by with_unfolding_all decide)⟩

/-! ### Claim C6: sub-threshold records are excluded but still weighed -/

/-- C6: a record whose weight fraction falls below the generator's
significance cutoff is a no-op for the generator loop — the fraction table
and the surrogate accumulator equal those computed from the table with all
such records removed (at the unchanged total) — while the reported total
mass and density still count every record: the total always equals the sum
of all record masses, filtered or not. -/
theorem c6_subthreshold_excluded_but_counted (zfun : Chars → Option Nat)
    (avail : List Nat) (volume : ℚ) (rows : List Row) :
    loopState zfun avail rows
      = List.foldl (stepRow zfun avail (sumMass rows)) ([], 0)
          (rows.filter (fun r => !isDiscarded zfun avail (sumMass rows) r))
    ∧ (generateMaterials zfun avail volume rows).fracs
        = (if (List.foldl (stepRow zfun avail (sumMass rows)) ([], 0)
                (rows.filter (fun r => !isDiscarded zfun avail (sumMass rows) r))).2 > 0
           then addFrac
              (List.foldl (stepRow zfun avail (sumMass rows)) ([], 0)
                (rows.filter (fun r => !isDiscarded zfun avail (sumMass rows) r))).1
              heliumZaid
              ((List.foldl (stepRow zfun avail (sumMass rows)) ([], 0)
                (rows.filter (fun r => !isDiscarded zfun avail (sumMass rows) r))).2
                / sumMass rows)
           else (List.foldl (stepRow zfun avail (sumMass rows)) ([], 0)
              (rows.filter (fun r => !isDiscarded zfun avail (sumMass rows) r))).1)
    ∧ (generateMaterials zfun avail volume rows).total = sumMass rows
    ∧ (generateMaterials zfun avail volume rows).density = sumMass rows / volume := by
  have h1 : loopState zfun avail rows
      = List.foldl (stepRow zfun avail (sumMass rows)) ([], 0)
          (rows.filter (fun r => !isDiscarded zfun avail (sumMass rows) r)) := by
    unfold loopState
    exact loop_filter_discard zfun avail (sumMass rows) rows ([], 0)
  refine ⟨h1, ?_, generateMaterials_total zfun avail volume rows,
    generateMaterials_density zfun avail volume rows⟩
  rw [generateMaterials_fracs, h1]

/-! ## Section aggregation: `parse_all_sections`
(src/tools/parseOutput.py lines 262-272): `pd.concat` of the per-subsection
frames followed by `drop_duplicates(subset='Nuclide', keep='first')`. -/

/-- `drop_duplicates(subset='Nuclide', keep='first')`: walk the rows in
order, keeping a row only when its nuclide name has not been seen before. -/
def dedupFirstAux : List Row → List Chars → List Row
  | [], _ => []
  | r :: rs, seen =>
    if r.nuclide ∈ seen then dedupFirstAux rs seen
    else r :: dedupFirstAux rs (r.nuclide :: seen)

def dedupFirst (l : List Row) : List Row := dedupFirstAux l []

/-- `pd.concat(all_dfs)` then `drop_duplicates(keep='first')`. -/
def aggregateSections (dfs : List (List Row)) : List Row :=
  dedupFirst (List.flatten dfs)

def namesOf (l : List Row) : List Chars := l.map Row.nuclide

/-- First record carrying a given nuclide name. -/
def findByName (l : List Row) (n : Chars) : Option Row :=
  l.find? (fun r => decide (r.nuclide = n))

theorem namesOf_cons (r : Row) (l : List Row) :
    namesOf (r :: l) = r.nuclide :: namesOf l := rfl

theorem dedupFirstAux_names (l : List Row) :
    ∀ seen, (namesOf (dedupFirstAux l seen)).Nodup
      ∧ ∀ n ∈ namesOf (dedupFirstAux l seen), n ∉ seen := by
  induction l with
  | nil => intro seen; simp [dedupFirstAux, namesOf]
  | cons r rs ih =>
    intro seen
    by_cases h : r.nuclide ∈ seen
    · simpa [dedupFirstAux, h] using ih seen
    · obtain ⟨ihn, ihs⟩ := ih (r.nuclide :: seen)
      rw [dedupFirstAux, if_neg h, namesOf_cons]
      constructor
      · refine List.Nodup.cons ?_ ihn
        intro hmem
        exact (ihs r.nuclide hmem) (by simp)
      · intro n hn
        rcases List.mem_cons.mp hn with hn | hn
        · exact hn ▸ h
        · intro hcon
          exact (ihs n hn) (by simp [hcon])

theorem dedupFirstAux_id (l : List Row) :
    ∀ seen, (namesOf l).Nodup → (∀ n ∈ namesOf l, n ∉ seen)
      → dedupFirstAux l seen = l := by
  induction l with
  | nil => intro seen _ _; rfl
  | cons r rs ih =>
    intro seen hnd hdisj
    rw [namesOf_cons] at hnd
    have hr : r.nuclide ∉ seen := hdisj r.nuclide (by rw [namesOf_cons]; simp)
    rw [dedupFirstAux, if_neg hr]
    congr 1
    refine ih (r.nuclide :: seen) (List.nodup_cons.mp hnd).2 ?_
    intro n hn
    simp only [List.mem_cons]
    rintro (hn' | hn')
    · exact (List.nodup_cons.mp hnd).1 (hn' ▸ hn)
    · exact hdisj n (by rw [namesOf_cons]; exact List.mem_cons_of_mem _ hn) hn'

theorem dedupFirstAux_first_wins (l : List Row) :
    ∀ seen r, r ∈ dedupFirstAux l seen
      → findByName l r.nuclide = some r ∧ r.nuclide ∉ seen := by
  induction l with
  | nil => intro seen r h; simp [dedupFirstAux] at h
  | cons x xs ih =>
    intro seen r h
    by_cases hx : x.nuclide ∈ seen
    · rw [dedupFirstAux, if_pos hx] at h
      obtain ⟨hfind, hns⟩ := ih seen r h
      have hne : ¬ (r.nuclide = x.nuclide) := fun hc => hns (hc ▸ hx)
      refine ⟨?_, hns⟩
      rw [findByName, List.find?_cons_of_neg _ ?_]
      · exact hfind
      · simp only [decide_eq_true_eq]
        exact fun hc => hne hc.symm
    · rw [dedupFirstAux, if_neg hx] at h
      rcases List.mem_cons.mp h with h | h
      · subst h
        refine ⟨?_, hx⟩
        rw [findByName, List.find?_cons_of_pos _ (by simp)]
      · obtain ⟨hfind, hns⟩ := ih (x.nuclide :: seen) r h
        have hne : ¬ (r.nuclide = x.nuclide) := fun hc => hns (by simp [hc])
        have hns' : r.nuclide ∉ seen := fun hc => hns (by simp [hc])
        refine ⟨?_, hns'⟩
        rw [findByName, List.find?_cons_of_neg _ ?_]
        · exact hfind
        · simp only [decide_eq_true_eq]
          exact fun hc => hne hc.symm

theorem dedupFirstAux_covers (l : List Row) :
    ∀ seen n, n ∈ namesOf l → n ∉ seen
      → n ∈ namesOf (dedupFirstAux l seen) := by
  induction l with
  | nil => intro seen n h _; simp [namesOf] at h
  | cons x xs ih =>
    intro seen n hn hns
    rw [namesOf_cons] at hn
    by_cases hx : x.nuclide ∈ seen
    · rw [dedupFirstAux, if_pos hx]
      rcases List.mem_cons.mp hn with h | h
      · exact absurd (h ▸ hx) (h ▸ hns)
      · exact ih seen n h hns
    · rw [dedupFirstAux, if_neg hx]
      rw [namesOf_cons]
      by_cases heq : n = x.nuclide
      · exact heq ▸ List.mem_cons_self _ _
      · rcases List.mem_cons.mp hn with h | h
        · exact absurd h heq
        · refine List.mem_cons_of_mem _ ?_
          exact ih (x.nuclide :: seen) n h (by simp [hns, heq])

/-! ### Claim C7: first-wins deduplication and idempotence -/

/-- C7: aggregation concatenates the per-subsection record lists in order
and deduplicates by nuclide name keeping the first occurrence: every
surviving record is literally the first record of the concatenation with
its name (never a sum of duplicates), the surviving names are exactly the
names of the concatenation without duplicates, and the dedup step is
idempotent. -/
theorem c7_aggregation_first_wins (dfs : List (List Row)) :
    aggregateSections dfs = dedupFirst (List.flatten dfs)
    ∧ (∀ r ∈ aggregateSections dfs,
        findByName (List.flatten dfs) r.nuclide = some r)
    ∧ (namesOf (aggregateSections dfs)).Nodup
    ∧ (∀ n ∈ namesOf (List.flatten dfs), n ∈ namesOf (aggregateSections dfs))
    ∧ dedupFirst (dedupFirst (List.flatten dfs)) = dedupFirst (List.flatten dfs) := by
  refine ⟨rfl, ?_, ?_, ?_, ?_⟩
  · intro r hr
    exact (dedupFirstAux_first_wins (List.flatten dfs) [] r hr).1
  · exact (dedupFirstAux_names (List.flatten dfs) []).1
  · intro n hn
    exact dedupFirstAux_covers (List.flatten dfs) [] n hn (by simp)
  · refine dedupFirstAux_id _ [] ?_ ?_
    · exact (dedupFirstAux_names (List.flatten dfs) []).1
    · intro n _
      simp

/-! ## Case discovery and selection: `find_all_cases` and the target-case
choice of `parse_all_sections` (src/tools/parseOutput.py lines 217-224 and
238-239).  `find_all_cases` runs
`re.findall(r"Nuclide concentrations in grams for case '<[^']+>'", content)`
(quotes around the group in the real pattern) and then `list(set(cases))`. -/

/-- The marker text up to and including the opening quote. -/
def caseMarker : Chars :=
  "Nuclide concentrations in grams for case ".toList ++ [quoteC]

/-- Greedy `[^']+` followed by the closing quote: the characters before the
next quote and the rest after it; `none` when no closing quote follows. -/
def takeToQuote : Chars → Option (Chars × Chars)
  | [] => none
  | c :: cs =>
    if c = quoteC then some ([], cs)
    else
      match takeToQuote cs with
      | some (b, r) => some (c :: b, r)
      | none => none

/-- The left-to-right non-overlapping scan of `re.findall`, with one unit
of fuel per scan step (`findCases` supplies the content length, which
bounds the number of steps since every step consumes at least one
character). -/
def findCasesFuel : Nat → Chars → List Chars
  | 0, _ => []
  | _, [] => []
  | fuel + 1, c :: cs =>
    if caseMarker.isPrefixOf (c :: cs) then
      match takeToQuote ((c :: cs).drop caseMarker.length) with
      | some (b, r) =>
        if b = [] then findCasesFuel fuel cs else b :: findCasesFuel fuel r
      | none => findCasesFuel fuel cs
    else findCasesFuel fuel cs

/-- The discovery-ordered match list of `re.findall` (with duplicates). -/
def findCases (content : Chars) : List Chars :=
  findCasesFuel content.length content

/-- `list(set(cases))`: some duplicate-free enumeration of the discovered
case names.  CPython iterates a set in hash-table order, which is not a
function of the discovery order (and is salted per process), so the result
is modelled relationally: any duplicate-free list with the same members is
admissible. -/
def PySetList (l out : List Chars) : Prop :=
  out.Nodup ∧ ∀ x, x ∈ out ↔ x ∈ l

/-- The target-case choice of `parse_all_sections` (line 239):
`selected_case if selected_case and selected_case in all_cases else
all_cases[-1]`.  `none` models Python `None`; the empty string is falsy in
Python, hence the `s ≠ []` conjunct. -/
def selectTarget (sel : Option Chars) (allCases : List Chars) : Chars :=
  match sel with
  | some s => if s ≠ [] ∧ s ∈ allCases then s else allCases.getLastD []
  | none => allCases.getLastD []

/-- An output text in which case `alpha` is discovered before case `beta`. -/
def c5Content : Chars :=
  caseMarker ++ "alpha".toList ++ [quoteC]
    ++ " table rows ".toList
    ++ caseMarker ++ "beta".toList ++ [quoteC]

/-! ### Claim C5: which case is selected by default -/

/-- C5 evidence (code bug): on `c5Content` the scan discovers `alpha` then
`beta`, in that order, but `find_all_cases` returns `list(set(cases))` and
set iteration order is not discovery order: `["beta", "alpha"]` is an
admissible value of `list(set(...))`, and with no caller-specified case
`parse_all_sections` then selects `alpha` — not `beta`, the last case
discovered in the text as the claim requires. -/
theorem c5_set_order_breaks_last_discovered :
    findCases c5Content = ["alpha".toList, "beta".toList]
    ∧ PySetList (findCases c5Content) ["beta".toList, "alpha".toList]
    ∧ selectTarget none ["beta".toList, "alpha".toList] = "alpha".toList
    ∧ (findCases c5Content).getLastD [] = "beta".toList
    ∧ "alpha".toList ≠ "beta".toList := by
  have hfind : findCases c5Content = ["alpha".toList, "beta".toList] := by decide
  refine ⟨hfind, ⟨by decide, ?_⟩, by decide, by rw [hfind]; decide, by decide⟩
  intro x
  rw [hfind]
  simp only [List.mem_cons, List.not_mem_nil, or_false]
  tauto

/-! ## Batch orchestration: `ParallelParseOutputProcessor`
(src/tools/parallel_parseOutput_processor.py).  A job pairs its element
name with the outcome of its per-file pipeline (`parse_all_sections` +
`generate_mcnp_materials` inside the worker's `try`):
`_parse_single_element` catches every exception and records it on the job,
so an outcome is `ok` with the material card or `error` with the captured
message, and one job's failure never raises across the batch boundary.
The worker pool only affects the order in which futures complete, modelled
as an arbitrary permutation of the submission-ordered job list. -/

instance exceptDecEq {ε α : Type} [DecidableEq ε] [DecidableEq α] :
    DecidableEq (Except ε α) := fun a b =>
  match a, b with
  | Except.ok x, Except.ok y =>
    if h : x = y then isTrue (by rw [h])
    else isFalse (fun hc => h (by injection hc))
  | Except.ok _, Except.error _ => isFalse (fun hc => by injection hc)
  | Except.error _, Except.ok _ => isFalse (fun hc => by injection hc)
  | Except.error e, Except.error f =>
    if h : e = f then isTrue (by rw [h])
    else isFalse (fun hc => h (by injection hc))

structure PJob where
  name : String
  result : Except String (List String)
deriving DecidableEq

/-- Whether the job ends `'completed'` rather than `'failed'`. -/
def jobSucceeded (j : PJob) : Bool :=
  match j.result with
  | Except.ok _ => true
  | Except.error _ => false

/-- `job.status` once terminal. -/
def jobStatus (j : PJob) : String :=
  if jobSucceeded j then "completed" else "failed"

/-- The `results` mapping of `process_all_parallel`, built in completion
order (`as_completed`). -/
def batchResults (complOrder : List PJob) : List (String × Bool) :=
  complOrder.map (fun j => (j.name, jobSucceeded j))

/-- The per-failure report: element name and error text, as surfaced by the
orchestrator's final summary. -/
def failedReport (complOrder : List PJob) : List (String × String) :=
  complOrder.filterMap (fun j =>
    match j.result with
    | Except.error e => some (j.name, e)
    | Except.ok _ => none)

def successTally (results : List (String × Bool)) : Nat :=
  results.countP (fun p => p.2)

/-- One block of `save_combined_materials`: the `c Element:` header line
followed by the job's material card. -/
def cardBlock (j : PJob) : Option (List String) :=
  match j.result with
  | Except.ok card => some (("c Element: " ++ j.name) :: card)
  | Except.error _ => none

/-- `save_combined_materials` iterates `self.jobs.values()` — the
submission-ordered dict, not the completion order — keeping completed
jobs. -/
def saveCombined (jobs : List PJob) : List (List String) :=
  jobs.filterMap cardBlock

def failedCount (jobs : List PJob) : Nat :=
  jobs.countP (fun j => !jobSucceeded j)

theorem countP_bool_complement {α : Type} (l : List α) (p : α → Bool) :
    l.countP p + l.countP (fun a => !p a) = l.length := by
  induction l with
  | nil => simp
  | cons a l ih =>
    rw [List.countP_cons, List.countP_cons]
    cases h : p a <;> simp [h] <;> omega

theorem length_filterMap_eq_countP {α β : Type} (f : α → Option β) (l : List α) :
    (l.filterMap f).length = l.countP (fun a => (f a).isSome) := by
  induction l with
  | nil => simp
  | cons a l ih =>
    rw [List.filterMap_cons, List.countP_cons]
    cases h : f a <;> simp [h, ih]

/-! ### Claim C8: batch outcome counts, tally, and artifact order -/

/-- The combined artifact is exactly the completed jobs' blocks in
submission order. -/
theorem saveCombined_eq_map_filter (jobs : List PJob) :
    saveCombined jobs
      = (jobs.filter jobSucceeded).map (fun j =>
          ("c Element: " ++ j.name) :: j.result.toOption.getD []) := by
  unfold saveCombined
  induction jobs with
  | nil => rfl
  | cons j js ih =>
    rw [List.filterMap_cons, List.filter_cons]
    cases h : j.result with
    | ok c => simp [cardBlock, h, jobSucceeded, Except.toOption, ih]
    | error e => simp [cardBlock, h, jobSucceeded, ih]

/-- C8: for N submitted jobs of which K fail their per-file pipeline, and
any completion order (any permutation of the submission list): exactly K
jobs end with `failed` status and N−K with `completed`; the reported tally
counts N−K successes and the failure report lists exactly the K failures,
each with its error text taken from a submitted job; and the combined
artifact consists of exactly the N−K completed jobs' material blocks in
submission order, independent of the completion order. -/
theorem c8_batch_outcomes (jobs complOrder : List PJob)
    (hperm : complOrder.Perm jobs) :
    (batchResults complOrder).countP (fun p => !p.2) = failedCount jobs
    ∧ successTally (batchResults complOrder) = jobs.length - failedCount jobs
    ∧ jobs.countP (fun j => decide (jobStatus j = "failed")) = failedCount jobs
    ∧ jobs.countP (fun j => decide (jobStatus j = "completed"))
        = jobs.length - failedCount jobs
    ∧ (failedReport complOrder).length = failedCount jobs
    ∧ (∀ p ∈ failedReport complOrder,
        ∃ j ∈ jobs, j.name = p.1 ∧ j.result = Except.error p.2)
    ∧ saveCombined jobs
        = (jobs.filter jobSucceeded).map (fun j =>
            ("c Element: " ++ j.name) :: j.result.toOption.getD [])
    ∧ (saveCombined jobs).length = jobs.length - failedCount jobs := by
  have hcompl := countP_bool_complement jobs (fun j => jobSucceeded j)
  have hfail : (batchResults complOrder).countP (fun p => !p.2)
      = failedCount jobs := by
    unfold batchResults failedCount
    rw [List.countP_map]
    exact hperm.countP_eq _
  have hsucc : successTally (batchResults complOrder)
      = jobs.length - failedCount jobs := by
    unfold successTally batchResults
    rw [List.countP_map]
    have h1 : List.countP
        ((fun p : String × Bool => p.2) ∘ fun j : PJob => (j.name, jobSucceeded j))
        complOrder
        = List.countP (fun j : PJob => jobSucceeded j) jobs := hperm.countP_eq _
    rw [h1]
    unfold failedCount
    omega
  have hstatf : jobs.countP (fun j => decide (jobStatus j = "failed"))
      = failedCount jobs := by
    unfold failedCount
    refine List.countP_congr ?_
    intro j _
    cases h : jobSucceeded j <;> simp [jobStatus, h]
  have hstatc : jobs.countP (fun j => decide (jobStatus j = "completed"))
      = jobs.length - failedCount jobs := by
    have : jobs.countP (fun j => decide (jobStatus j = "completed"))
        = jobs.countP (fun j => jobSucceeded j) := by
      refine List.countP_congr ?_
      intro j _
      cases h : jobSucceeded j <;> simp [jobStatus, h]
    unfold failedCount
    omega
  have hreplen : (failedReport complOrder).length = failedCount jobs := by
    unfold failedReport
    rw [length_filterMap_eq_countP]
    have hpt : complOrder.countP (fun j =>
        (match j.result with
          | Except.error e => some (j.name, e)
          | Except.ok _ => none : Option (String × String)).isSome)
        = complOrder.countP (fun j => !jobSucceeded j) := by
      refine List.countP_congr ?_
      intro j _
      cases h : j.result <;> simp [jobSucceeded, h]
    rw [hpt]
    unfold failedCount
    exact hperm.countP_eq _
  have hrepmem : ∀ p ∈ failedReport complOrder,
      ∃ j ∈ jobs, j.name = p.1 ∧ j.result = Except.error p.2 := by
    intro p hp
    unfold failedReport at hp
    rw [List.mem_filterMap] at hp
    obtain ⟨j, hj, hfj⟩ := hp
    refine ⟨j, hperm.mem_iff.mp hj, ?_⟩
    cases h : j.result with
    | ok c => rw [h] at hfj; cases hfj
    | error e =>
      rw [h] at hfj
      have hpe : (j.name, e) = p := by injection hfj
      subst hpe
      exact ⟨rfl, rfl⟩
  have hsave := saveCombined_eq_map_filter jobs
  have hsavelen : (saveCombined jobs).length
      = jobs.length - failedCount jobs := by
    rw [hsave, List.length_map, ← List.countP_eq_length_filter]
    have h2 : List.countP jobSucceeded jobs
        = List.countP (fun j : PJob => jobSucceeded j) jobs := rfl
    rw [h2]
    unfold failedCount
    omega
  exact ⟨hfail, hsucc, hstatf, hstatc, hreplen, hrepmem, hsave, hsavelen⟩

/-- Three submitted jobs, the middle one failing its pipeline. -/
def c8Jobs : List PJob :=
  [⟨"element_001", Except.ok ["M200 nlib=00c", "     92235 -1.000000e+00"]⟩,
   ⟨"element_002", Except.error "No data tables found in ORIGEN output file"⟩,
   ⟨"element_003", Except.ok ["M202 nlib=00c", "     2004 -1.000000e+00"]⟩]

/-- A completion order differing from the submission order. -/
def c8Completion : List PJob :=
  [⟨"element_003", Except.ok ["M202 nlib=00c", "     2004 -1.000000e+00"]⟩,
   ⟨"element_001", Except.ok ["M200 nlib=00c", "     92235 -1.000000e+00"]⟩,
   ⟨"element_002", Except.error "No data tables found in ORIGEN output file"⟩]

/-- C8 witness: with the shuffled completion order, 1 of 3 jobs fails, the
tally reports 2 successes, and the combined artifact holds the 2 completed
blocks. -/
theorem c8_batch_outcomes_witness :
    c8Completion.Perm c8Jobs
    ∧ (batchResults c8Completion).countP (fun p => !p.2) = failedCount c8Jobs
    ∧ (failedReport c8Completion).length = failedCount c8Jobs
    ∧ (saveCombined c8Jobs).length = c8Jobs.length - failedCount c8Jobs :=
  ⟨by decide,
    (c8_batch_outcomes c8Jobs c8Completion (by decide)).1,
    (c8_batch_outcomes c8Jobs c8Completion (by decide)).2.2.2.2.1,
    (c8_batch_outcomes c8Jobs c8Completion (by decide)).2.2.2.2.2.2.2⟩

/-! ## Per-line extraction: `extract_section_data`
(src/tools/parseOutput.py lines 159-197) and the legacy
`SimpleORIGENParser.parse_simple` (src/backups/parseOutput_simple.py lines
86-105).  Both walk the data lines after the header row; `h` is the
header's whitespace token count (`len(time_columns)`, the `last_col_index`
of the current extractor). -/

def totalsToken : Chars := "totals".toList

/-- The skip test, identical in both sources:
`if not line or 'totals' in line.lower() or line.startswith('=') or
line.startswith('-')` on the stripped line. -/
def skipLine (line : Chars) : Bool :=
  decide (line = []) || containsSub (toLowerL line) totalsToken
    || headIs line '=' || headIs line '-'

/-- Consume one optional leading sign: (is-negative, rest). -/
def splitSign : Chars → Bool × Chars
  | [] => (false, [])
  | c :: r =>
    if c = '-' then (true, r)
    else if c = '+' then (false, r)
    else (false, c :: r)

def spanDigits (l : Chars) : Chars × Chars :=
  (l.takeWhile Char.isDigit, l.dropWhile Char.isDigit)

/-- Mantissa value: integer and fractional digit runs. -/
def mantVal (ip fp : Chars) : ℚ :=
  (digitsVal (ip ++ fp) : ℚ) / (10 : ℚ) ^ fp.length

def signedQ (neg : Bool) (v : ℚ) : ℚ := if neg then -v else v

/-- Python `float(token)` on the finite decimal literals that appear in
ORIGEN tables: optional sign, digit run with optional fractional part (at
least one digit overall), optional `e`/`E` exponent with optional sign and
a mandatory digit run, nothing trailing.  (Python's `float` also accepts
`inf`/`nan` spellings and underscore digit separators, which have no
rational value and do not occur in these tables; they are rejected here.
Both extractors and the claims about them share this parse, so the
comparisons between them are unaffected by its exact domain.) -/
def pyFloat? (tok : Chars) : Option ℚ :=
  let s1 := splitSign tok
  let d1 := spanDigits s1.2
  let fd : Chars × Chars :=
    match d1.2 with
    | '.' :: r => spanDigits r
    | _ => ([], d1.2)
  if d1.1 = [] ∧ fd.1 = [] then none
  else
    match fd.2 with
    | [] => some (signedQ s1.1 (mantVal d1.1 fd.1))
    | e :: r =>
      if e = 'e' ∨ e = 'E' then
        let s2 := splitSign r
        let d2 := spanDigits s2.2
        if d2.1 = [] ∨ d2.2 ≠ [] then none
        else
          some (signedQ s1.1 (mantVal d1.1 fd.1
            * (10 : ℚ) ^ (if s2.1 then -(digitsVal d2.1 : Int) else (digitsVal d2.1 : Int))))
      else none

/-- The extractor's background noise floor: values ≤ 1e-12 are dropped. -/
def noiseFloor : ℚ := 1 / 10 ^ 12

/-- The per-data-line step of `extract_section_data`: strip, skip, split,
require at least `h + 1` tokens, read the value at the fixed offset
`parts[last_col_index]` (a failed `float` is swallowed by the
`try/except`), keep `(parts[0], value)` when the value exceeds 1e-12. -/
def processDataLine (h : Nat) (rawLine : Chars) : Option (Chars × ℚ) :=
  if skipLine (trimL rawLine) then none
  else if (pySplitWs (trimL rawLine)).length < h + 1 then none
  else
    match pyFloat? ((pySplitWs (trimL rawLine)).getD h []) with
    | none => none
    | some v =>
      if v > noiseFloor then some ((pySplitWs (trimL rawLine)).getD 0 [], v)
      else none

/-- The per-data-line step of the legacy `parse_simple`: identical skip and
arity tests, but the value is read from the row's final token
`parts[-1]`. -/
def legacyDataLine (h : Nat) (rawLine : Chars) : Option (Chars × ℚ) :=
  if skipLine (trimL rawLine) then none
  else if (pySplitWs (trimL rawLine)).length < h + 1 then none
  else
    match pyFloat? ((pySplitWs (trimL rawLine)).getLastD []) with
    | none => none
    | some v =>
      if v > noiseFloor then some ((pySplitWs (trimL rawLine)).getD 0 [], v)
      else none

/-! ### Claim C9: exact characterisation of contributing data lines -/

/-- C9 (amended): a data line contributes a record if and only if, after
stripping, it is non-blank, does not contain `totals` case-insensitively
(the source tests `'totals' in line.lower()`; the claim's literal lowercase
reading fails — see the counterexample), does not lead with `=` or `-`,
splits into at least `h + 1` whitespace tokens, and the token at the fixed
offset `h` determined by the header's token count parses as a number
strictly greater than 1e-12; the record is then token 0 paired with that
value. -/
theorem c9_line_filter (h : Nat) (rawLine : Chars) (name : Chars) (v : ℚ) :
    processDataLine h rawLine = some (name, v)
      ↔ (trimL rawLine ≠ []
        ∧ containsSub (toLowerL (trimL rawLine)) totalsToken = false
        ∧ headIs (trimL rawLine) '=' = false
        ∧ headIs (trimL rawLine) '-' = false
        ∧ h + 1 ≤ (pySplitWs (trimL rawLine)).length
        ∧ pyFloat? ((pySplitWs (trimL rawLine)).getD h []) = some v
        ∧ noiseFloor < v
        ∧ name = (pySplitWs (trimL rawLine)).getD 0 []) := by
  unfold processDataLine
  by_cases hsk : skipLine (trimL rawLine) = true
  · rw [if_pos hsk]
    unfold skipLine at hsk
    simp only [Bool.or_eq_true, decide_eq_true_eq] at hsk
    constructor
    · intro hc; cases hc
    · rintro ⟨h1, h2, h3, h4, -⟩
      rcases hsk with ((hsk | hsk) | hsk) | hsk
      · exact absurd hsk h1
      · rw [hsk] at h2; cases h2
      · rw [hsk] at h3; cases h3
      · rw [hsk] at h4; cases h4
  · have hsk' : skipLine (trimL rawLine) = false := by
      cases hb : skipLine (trimL rawLine)
      · rfl
      · exact absurd hb hsk
    rw [if_neg hsk]
    unfold skipLine at hsk'
    simp only [Bool.or_eq_false_iff, decide_eq_false_iff_not] at hsk'
    obtain ⟨⟨⟨h1, h2⟩, h3⟩, h4⟩ := hsk'
    by_cases hlen : (pySplitWs (trimL rawLine)).length < h + 1
    · rw [if_pos hlen]
      constructor
      · intro hc; cases hc
      · rintro ⟨-, -, -, -, h5, -⟩
        omega
    · rw [if_neg hlen]
      split
      · rename_i hv
        constructor
        · intro hc
          exact Option.noConfusion hc
        · rintro ⟨-, -, -, -, -, h6, -⟩
          rw [hv] at h6
          exact Option.noConfusion h6
      · rename_i w hv
        by_cases hw : w > noiseFloor
        · rw [if_pos hw]
          constructor
          · intro hc
            injection hc with hc
            have hn : (pySplitWs (trimL rawLine)).getD 0 [] = name :=
              congrArg Prod.fst hc
            have hvv : w = v := congrArg Prod.snd hc
            subst hvv
            exact ⟨h1, h2, h3, h4, by omega, hv, hw, hn.symm⟩
          · rintro ⟨-, -, -, -, -, h6, -, h8⟩
            rw [hv] at h6
            injection h6 with h6
            subst h6
            rw [h8]
        · rw [if_neg hw]
          constructor
          · intro hc
            exact Option.noConfusion hc
          · rintro ⟨-, -, -, -, -, h6, h7, -⟩
            rw [hv] at h6
            injection h6 with h6
            subst h6
            exact absurd h7 hw

/-- C9 witness: the data row `U-235  1.0  2.5` under a two-token header
contributes the record `(U-235, 2.5)`, read at the fixed offset 2. -/
theorem c9_line_filter_witness :
    processDataLine 2 ("U-235  1.0  2.5".toList)
      = some ("U-235".toList, 5 / 2) :=
  (c9_line_filter 2 ("U-235  1.0  2.5".toList) "U-235".toList (5 / 2)).mpr
    ⟨by decide, by decide, by decide, by decide, by decide,
      by with_unfolding_all decide, by with_unfolding_all decide, by decide⟩

/-- C9 counterexample: the line `Totals 2.0` satisfies every condition of
the claim read literally — in particular it does not contain the lowercase
string `totals` — yet contributes no record, because the source's test is
`'totals' in line.lower()`, a case-insensitive containment. -/
theorem c9_totals_case_counterexample :
    containsSub (trimL ("Totals 2.0".toList)) totalsToken = false
    ∧ trimL ("Totals 2.0".toList) ≠ []
    ∧ headIs (trimL ("Totals 2.0".toList)) '=' = false
    ∧ headIs (trimL ("Totals 2.0".toList)) '-' = false
    ∧ 1 + 1 ≤ (pySplitWs (trimL ("Totals 2.0".toList))).length
    ∧ pyFloat? ((pySplitWs (trimL ("Totals 2.0".toList))).getD 1 []) = some 2
    ∧ noiseFloor < 2
    ∧ "Totals".toList = (pySplitWs (trimL ("Totals 2.0".toList))).getD 0 []
    ∧ processDataLine 1 ("Totals 2.0".toList) = none := by
  refine ⟨by decide, by decide, by decide, by decide, by decide, ?_, ?_, by decide, ?_⟩
  · with_unfolding_all decide
  · with_unfolding_all decide
  · with_unfolding_all decide

/-! ### Claim C10: current extractor vs. legacy extractor -/

theorem getD_eq_getLastD {α : Type} (d : α) :
    ∀ (l : List α) (n : Nat), l.length = n + 1 → l.getD n d = l.getLastD d := by
  intro l
  induction l with
  | nil => intro n h; cases h
  | cons a t ih =>
    intro n h
    cases t with
    | nil =>
      have hn : n = 0 := by simpa using h
      subst hn
      rfl
    | cons b t2 =>
      cases n with
      | zero => simp at h
      | succ m =>
        have hm : (b :: t2).length = m + 1 := by
          simp only [List.length_cons] at h ⊢
          omega
        have hd : (a :: b :: t2).getD (m + 1) d = (b :: t2).getD m d := rfl
        rw [hd, ih m hm]
        simp [List.getLastD_eq_getLast?, List.getLast?_cons_cons]

/-- C10 (amended): on every data line splitting into at most `h + 1`
whitespace tokens — in particular on the exactly-`h + 1`-token rows both
extractors were written for, where the fixed-offset token *is* the final
token — the current extractor and the legacy extractor make the same
keep/skip decision and extract the same (name, mass) pair.  A row with
extra trailing tokens breaks the equivalence (see the counterexample). -/
theorem c10_line_refinement (h : Nat) (rawLine : Chars)
    (hlen : (pySplitWs (trimL rawLine)).length ≤ h + 1) :
    processDataLine h rawLine = legacyDataLine h rawLine := by
  unfold processDataLine legacyDataLine
  by_cases hsk : skipLine (trimL rawLine) = true
  · rw [if_pos hsk, if_pos hsk]
  · rw [if_neg hsk, if_neg hsk]
    by_cases hl : (pySplitWs (trimL rawLine)).length < h + 1
    · rw [if_pos hl, if_pos hl]
    · rw [if_neg hl, if_neg hl]
      have hexact : (pySplitWs (trimL rawLine)).length = h + 1 := by omega
      rw [getD_eq_getLastD [] (pySplitWs (trimL rawLine)) h hexact]

/-- C10 witness: on the two-token row `U-235 2.0` under a one-token header,
both extractors agree (and keep the record `(U-235, 2.0)`). -/
theorem c10_line_refinement_witness :
    (pySplitWs (trimL ("U-235 2.0".toList))).length ≤ 1 + 1
    ∧ processDataLine 1 ("U-235 2.0".toList)
        = legacyDataLine 1 ("U-235 2.0".toList) :=
  ⟨by decide, c10_line_refinement 1 ("U-235 2.0".toList) (by decide)⟩

/-- C10 counterexample: on the three-token row `U-235 2.0 3.0` under a
one-token header both extractors keep the row, but the current one reads
the fixed offset (`2.0`) while the legacy one reads the final token
(`3.0`): they extract different masses. -/
theorem c10_extra_token_counterexample :
    processDataLine 1 ("U-235 2.0 3.0".toList) = some ("U-235".toList, 2)
    ∧ legacyDataLine 1 ("U-235 2.0 3.0".toList) = some ("U-235".toList, 3)
    ∧ processDataLine 1 ("U-235 2.0 3.0".toList)
        ≠ legacyDataLine 1 ("U-235 2.0 3.0".toList) := by
  refine ⟨?_, ?_, ?_⟩ <;> with_unfolding_all decide

end ScalePower
